import Mathlib

/-!
Verification development for the flashcard generator
(`src/flashcard_generator.py` of Robetho/flashcard_creator_ai).

Shallow embedding conventions:

* Python strings are modelled as `List Char`; `str.lower` as mapping
  `Char.toLower`, `str.strip` as dropping `Char.isWhitespace` on both
  ends, `str.split()` as splitting on whitespace runs, and the substring
  test `pat in s` as the executable `containsSub`.
* The external collaborators are parameters: the spaCy annotator is a
  function `nlp : List Char → Doc` producing the annotated document
  (sentences with entity/chunk spans, document-wide entities and
  tokens), and the WordNet lemma enumeration is
  `wn : List Char → List (List Char)` giving the raw lemma names (in
  synset/lemma emission order) for a queried word.
* Python's `random.shuffle` / `random.sample` are modelled by an oracle
  `rand : Nat → SentRand` providing, for the sentence at each index, the
  three random operations the code may perform there.  Theorems that
  need them assume only that a shuffle permutes its input and that a
  sample of size `k ≤ length` returns `k` entries drawn without
  positional repetition (`List.Subperm`).
* `set(...)` contents produced by `get_synonyms` are modelled with
  `List.dedup`; Python's set iteration order is unspecified, so any
  fixed enumeration of the same elements is a faithful model.

Every definition below is translated line-by-line from the source file;
the one exception is `spec_answerPicker`, which deliberately follows the
specification's wording of the Answer Picker so that it can be compared
with the code's behaviour (claim C5).
-/

namespace FlashcardGen

/-- Python `str.lower()` (ASCII-adequate model). -/
def pyLower (l : List Char) : List Char := l.map Char.toLower

/-- One-sided `str.lstrip()`. -/
def pyLstrip (l : List Char) : List Char := l.dropWhile Char.isWhitespace

/-- Python `str.strip()`: whitespace removed from both ends. -/
def pyStrip (l : List Char) : List Char :=
  ((pyLstrip l).reverse.dropWhile Char.isWhitespace).reverse

/-- Python `pat in s` (contiguous substring test). -/
def containsSub (s pat : List Char) : Bool :=
  match s with
  | [] => pat.isEmpty
  | _ :: cs => pat.isPrefixOf s || containsSub cs pat

/-- Python `s.replace(pat, rep, 1)`: replace only the first occurrence. -/
def replaceFirst (s pat rep : List Char) : List Char :=
  match s with
  | [] => if pat.isEmpty then rep else []
  | c :: cs =>
    if pat.isPrefixOf (c :: cs) then rep ++ (c :: cs).drop pat.length
    else c :: replaceFirst cs pat rep

/-- Number of (possibly overlapping) start positions at which `pat`
occurs in the second argument. -/
def countOcc (pat : List Char) : List Char → Nat
  | [] => if pat.isEmpty then 1 else 0
  | c :: cs => (if pat.isPrefixOf (c :: cs) then 1 else 0) + countOcc pat cs

/-- Accumulator worker for `pySplitWs` (current partially-read word is
kept reversed in `acc`). -/
def splitWsAux : List Char → List Char → List (List Char)
  | [], acc => if acc.isEmpty then [] else [acc.reverse]
  | c :: cs, acc =>
    if c.isWhitespace then
      if acc.isEmpty then splitWsAux cs [] else acc.reverse :: splitWsAux cs []
    else splitWsAux cs (c :: acc)

/-- Python `str.split()` with no argument: maximal runs of
non-whitespace characters. -/
def pySplitWs (l : List Char) : List (List Char) := splitWsAux l []

/-- The decimal rendering of a natural number, as produced by a Python
f-string; structural (fuelled) so that it evaluates in the kernel. -/
def natCharsGo : Nat → Nat → List Char
  | 0, _ => []
  | fuel + 1, n =>
    if n < 10 then [Nat.digitChar n]
    else natCharsGo fuel (n / 10) ++ [Nat.digitChar (n % 10)]

/-- Decimal digits of `n`, most significant first. -/
def natChars (n : Nat) : List Char := natCharsGo (n + 1) n

/-- The padding string `f"Option {k}"` from line 147. -/
def placeholder (k : Nat) : List Char := "Option ".data ++ natChars k

/-- The blank marker `"______"` (six underscores, line 104). -/
def marker : List Char := "______".data

/-- A spaCy named-entity span: `ent.text` and `ent.label_`. -/
structure Ent where
  text : List Char
  label : String
deriving DecidableEq

/-- A spaCy noun chunk: `chunk.text` and `chunk.root.pos_`. -/
structure Chunk where
  text : List Char
  rootPos : String
deriving DecidableEq

/-- A spaCy token: `token.text` and `token.pos_`. -/
structure Token where
  text : List Char
  pos : String
deriving DecidableEq

/-- One sentence of the annotated document (`sent.text`, `sent.ents`,
`sent.noun_chunks`). -/
structure Sent where
  text : List Char
  ents : List Ent
  chunks : List Chunk
deriving DecidableEq

/-- The annotated document: `doc.sents`, `doc.ents`, and the token
stream `for token in doc`. -/
structure Doc where
  sents : List Sent
  ents : List Ent
  tokens : List Token
deriving DecidableEq

/-- The flashcard dictionary built at lines 154-159. -/
structure Flashcard where
  type : String
  question : List Char
  answer : List Char
  options : List (List Char)
deriving DecidableEq, Inhabited

/-- The per-sentence random operations: the `random.shuffle` of the
fallback candidates (line 129), the `random.sample` (line 151) and the
`random.shuffle` of the options (line 152). -/
structure SentRand where
  shuffleFallback : List (List Char) → List (List Char)
  sample : List (List Char) → Nat → List (List Char)
  shuffleOptions : List (List Char) → List (List Char)

/-- A deterministic random oracle (identity shuffles, initial-segment
samples); used to instantiate witnesses. -/
def idRand : Nat → SentRand :=
  fun _ => ⟨id, fun l k => l.take k, id⟩

/-- `lemma.name().replace("_", " ")` (line 68). -/
def underscoreToSpace (l : List Char) : List Char :=
  l.map fun c => if c = '_' then ' ' else c

/-- `get_synonyms` (lines 63-71): collect the lemma names of all synsets
of `word`, replace underscores by spaces, drop those equal to the word
itself case-insensitively, and return the resulting set as a list. -/
def get_synonyms (wn : List Char → List (List Char)) (word : List Char) :
    List (List Char) :=
  (((wn word).map underscoreToSpace).filter
    (fun s => !(pyLower s == pyLower word))).dedup

/-- The entity labels accepted by the answer picker (line 85). -/
def acceptedLabels : List String :=
  ["GPE", "LOC", "ORG", "PERSON", "NORP", "FAC", "PRODUCT", "EVENT",
   "WORK_OF_ART", "LAW", "LANGUAGE", "PERCENT", "MONEY", "QUANTITY", "ORDINAL"]

/-- The noun-chunk scan of lines 90-95: first chunk with more than one
word, more than five characters, and root tagged exactly `NOUN`. -/
def fromChunk (sent : Sent) : Option (List Char) :=
  (sent.chunks.find? fun c =>
    decide (1 < (pySplitWs c.text).length) && decide (5 < c.text.length) &&
      (c.rootPos == "NOUN")).map (·.text)

/-- Lines 82-95: the value of `answer_candidate` after the entity scan
and the noun-chunk fall-through: the first accepted entity's text, with
the chunk scan consulted when no entity matched or the matched entity's
text is falsy (the empty string). -/
def candFrom (sent : Sent) : Option (List Char) :=
  match (sent.ents.find? fun e => acceptedLabels.contains e.label).map
      (·.text) with
  | some t => if t.isEmpty then fromChunk sent else some t
  | none => fromChunk sent

/-- Lines 82-98: the chunk fall-through plus the final
`if not answer_candidate: continue` falsy check. -/
def pickAnswer (sent : Sent) : Option (List Char) :=
  match candFrom sent with
  | some t => if t.isEmpty then none else some t
  | none => none

/-- Lines 82-102: `pickAnswer` followed by the guard
`if not answer_candidate.strip() or len(answer_candidate.strip()) < 3`
(the emptiness test is subsumed by the length test). -/
def codeChosen (sent : Sent) : Option (List Char) :=
  match pickAnswer sent with
  | none => none
  | some t => if (pyStrip t).length < 3 then none else some t

/-- Lines 77-108 for one sentence: strip the sentence text, choose the
answer, mask the first occurrence, and apply the degenerate-replacement
guard of line 107.  Returns the (unstripped) question together with the
answer candidate. -/
def chooseQA (sent : Sent) : Option (List Char × List Char) :=
  let sentence := pyStrip sent.text
  if sentence.isEmpty then none
  else
    match codeChosen sent with
    | none => none
    | some a =>
      let q := replaceFirst sentence a marker
      if containsSub (pyLower q) (pyLower a) && !containsSub q marker then none
      else some (q, a)

/-- Line 114: the synonym lookup key — the last whitespace word of the
answer if it contains a space, otherwise the whole answer.  (The code's
`split()[-1]` cannot face an empty split here because the answer has at
least three non-whitespace characters; `getLastD` is therefore an exact
model on every reachable input.) -/
def synKey (a : List Char) : List Char :=
  if a.contains ' ' then (pySplitWs a).getLastD [] else a

/-- Lines 121-127: the document-wide fallback candidates — every entity
text of the whole document that is not case-insensitively the answer and
has fewer than four words, followed by every `NOUN` token text that is
not case-insensitively the answer and is longer than two characters. -/
def fallbackPool (doc : Doc) (a : List Char) : List (List Char) :=
  (doc.ents.filter fun e =>
      decide (¬ pyLower e.text = pyLower a) &&
        decide ((pySplitWs e.text).length < 4)).map (·.text) ++
  (doc.tokens.filter fun t =>
      (t.pos == "NOUN") && decide (¬ pyLower t.text = pyLower a) &&
        decide (2 < t.text.length)).map (·.text)

/-- Lines 130-134: append shuffled fallback candidates not already
present (case-sensitively), stopping once the pool holds `cap`
(`num_distractors * 2`) entries; the check runs after each append. -/
def extendPool (acc : List (List Char)) (cands : List (List Char))
    (cap : Nat) : List (List Char) :=
  match cands with
  | [] => acc
  | d :: ds =>
    if d ∈ acc then extendPool acc ds cap
    else
      let acc' := acc ++ [d]
      if cap ≤ acc'.length then acc' else extendPool acc' ds cap

/-- Lines 138-143: keep pool entries that are not the answer and not yet
present case-insensitively, breaking as soon as `numD` are collected
(the break runs after each append). -/
def selectGo (a : List Char) (numD : Nat) (acc : List (List Char)) :
    List (List Char) → List (List Char)
  | [] => acc
  | d :: ds =>
    if pyLower d ≠ pyLower a ∧ pyLower d ∉ acc.map pyLower then
      let acc' := acc ++ [d]
      if numD ≤ acc'.length then acc' else selectGo a numD acc' ds
    else selectGo a numD acc ds

/-- The `final_distractors` list of lines 138-143. -/
def selectFinal (a : List Char) (numD : Nat) (pool : List (List Char)) :
    List (List Char) :=
  selectGo a numD [] pool

/-- `n` iterations of the padding loop body of lines 146-147. -/
def padCount (l : List (List Char)) : Nat → List (List Char)
  | 0 => l
  | n + 1 => padCount (l ++ [placeholder (l.length + 1)]) n

/-- Lines 146-147: `while len(final_distractors) < num_distractors`,
appending `f"Option {len+1}"`; each iteration grows the list by one, so
the loop runs exactly `numD - len` times. -/
def padPlaceholders (l : List (List Char)) (numD : Nat) : List (List Char) :=
  padCount l (numD - l.length)

/-- Lines 113-134: the `possible_distractors` pool — the synonyms of the
lookup key, extended (only when they number fewer than `numD`) with the
shuffled document-wide fallback candidates. -/
def poolFor (doc : Doc) (wn : List Char → List (List Char)) (r : SentRand)
    (numD : Nat) (a : List Char) : List (List Char) :=
  let possible := get_synonyms wn (synKey a)
  if possible.length < numD then
    extendPool possible (r.shuffleFallback (fallbackPool doc a)) (numD * 2)
  else possible

/-- Lines 111-152 for one sentence: distractor synthesis and option
assembly for the chosen answer `a`. -/
def buildOptions (doc : Doc) (wn : List Char → List (List Char))
    (r : SentRand) (numD : Nat) (a : List Char) : List (List Char) :=
  let finalD := selectFinal a numD (poolFor doc wn r numD a)
  let padded := padPlaceholders finalD numD
  r.shuffleOptions (a :: r.sample padded (min padded.length numD))

/-- Lines 77-159 for one sentence: `none` when the sentence is skipped,
otherwise the flashcard dictionary appended at lines 154-159. -/
def processSent (doc : Doc) (wn : List Char → List (List Char))
    (r : SentRand) (numD : Nat) (sent : Sent) : Option Flashcard :=
  (chooseQA sent).map fun qa =>
    { type := "mcq"
      question := pyStrip qa.1
      answer := pyStrip qa.2
      options := buildOptions doc wn r numD qa.2 }

/-- `generate_mcq_flashcards` (lines 73-161): annotate the text once and
fold the per-sentence pipeline over the document's sentences. -/
def generate_mcq_flashcards (nlp : List Char → Doc)
    (wn : List Char → List (List Char)) (rand : Nat → SentRand)
    (docText : List Char) (numD : Nat) : List Flashcard :=
  let doc := nlp docText
  doc.sents.enum.filterMap fun p => processSent doc wn (rand p.1) numD p.2

/-- The Answer Picker as the specification words it (claims C5): first
accepted entity; else first noun chunk with more than one word, more
than five characters, and root tag exactly `NOUN`; reject when nothing
was found or the trimmed candidate is shorter than three characters. -/
def spec_answerPicker (sent : Sent) : Option (List Char) :=
  let cand :=
    match (sent.ents.find? fun e => acceptedLabels.contains e.label).map
        (·.text) with
    | some t => some t
    | none =>
      (sent.chunks.find? fun c =>
        decide (1 < (pySplitWs c.text).length) && decide (5 < c.text.length) &&
          (c.rootPos == "NOUN")).map (·.text)
  match cand with
  | some t => if (pyStrip t).length < 3 then none else some t
  | none => none

/-- `x` collides case-insensitively with one of the placeholder strings
`Option 1` … `Option numD` that padding can produce. -/
def phCollides (x : List Char) (numD : Nat) : Prop :=
  ∃ k ∈ List.range' 1 numD, pyLower x = pyLower (placeholder k)

instance (x : List Char) (numD : Nat) : Decidable (phCollides x numD) :=
  decidable_of_iff (∃ k ∈ List.range' 1 numD, pyLower x = pyLower (placeholder k))
    Iff.rfl

/-- Space-joined words: the shape of a well-formed multi-word phrase. -/
def joinSp : List (List Char) → List Char
  | [] => []
  | [w] => w
  | w :: ws => w ++ ' ' :: joinSp ws

/-- A phrase is clean when it consists of its own whitespace-split words
joined by single spaces (no leading/trailing/doubled whitespace, no
tabs or newlines inside). -/
def isCleanPhrase (a : List Char) : Prop :=
  pySplitWs a ≠ [] ∧ a = joinSp (pySplitWs a)

instance (a : List Char) : Decidable (isCleanPhrase a) :=
  decidable_of_iff (pySplitWs a ≠ [] ∧ a = joinSp (pySplitWs a)) Iff.rfl

/-! ### Concrete fixtures used by witnesses and counterexamples -/

/-- A lexical oracle with no synonyms at all. -/
def wWn : List Char → List (List Char) := fun _ => []

/-- A small well-behaved annotated document: one sentence whose first
entity is `Paris`, with two common nouns elsewhere in the document. -/
def wDoc : Doc :=
  { sents := [{ text := "Paris is big.".data
                ents := [{ text := "Paris".data, label := "GPE" }]
                chunks := [] }]
    ents := [{ text := "Paris".data, label := "GPE" }]
    tokens := [{ text := "dog".data, pos := "NOUN" },
               { text := "cat".data, pos := "NOUN" }] }

/-- Annotator stub returning `wDoc` for any text. -/
def wNlp : List Char → Doc := fun _ => wDoc

/-- The input text matching `wDoc`. -/
def wText : List Char := "Paris is big.".data

/-- Document whose only answer candidate is the entity `Option 1`,
whose text collides with the first padding placeholder. -/
def phDoc : Doc :=
  { sents := [{ text := "Option 1 works.".data
                ents := [{ text := "Option 1".data, label := "PRODUCT" }]
                chunks := [] }]
    ents := [{ text := "Option 1".data, label := "PRODUCT" }]
    tokens := [] }

/-- Annotator stub returning `phDoc` for any text. -/
def phNlp : List Char → Doc := fun _ => phDoc

/-- Document whose single sentence contains its answer `Paris` twice. -/
def twiceDoc : Doc :=
  { sents := [{ text := "Paris is Paris.".data
                ents := [{ text := "Paris".data, label := "GPE" }]
                chunks := [] }]
    ents := [{ text := "Paris".data, label := "GPE" }]
    tokens := [] }

/-- Annotator stub returning `twiceDoc` for any text. -/
def twiceNlp : List Char → Doc := fun _ => twiceDoc

/-- Document with two accepted entities, used to show that the fallback
pool depends on the answer being processed. -/
def twoEntDoc : Doc :=
  { sents := []
    ents := [{ text := "Paris".data, label := "GPE" },
             { text := "London".data, label := "GPE" }]
    tokens := [] }

/-- Annotator stub returning an empty document. -/
def emptyNlp : List Char → Doc := fun _ => ⟨[], [], []⟩

/-- The single sentence of `wDoc`. -/
def wSent : Sent :=
  { text := "Paris is big.".data
    ents := [{ text := "Paris".data, label := "GPE" }]
    chunks := [] }

/-- A sentence whose entity text differs in case from its occurrence in
the sentence text, so that the replacement leaves no marker while the
lowercased answer still occurs: the degenerate-replacement guard of
line 107 fires. -/
def mismatchSent : Sent :=
  { text := "bonjour PARIS hello.".data
    ents := [{ text := "Paris".data, label := "GPE" }]
    chunks := [] }

/-- Lexical oracle whose lemma list contains the multi-word phrase
`ice_cream`: a WordNet query for the last word of the answer
`ice cream` returns the full answer itself. -/
def c7Wn : List Char → List (List Char) :=
  fun _ => ["ice_cream".data, "gelato".data]

/-! ### The substring test and first-occurrence replacement -/

theorem containsSub_iff :
    ∀ (s pat : List Char), containsSub s pat = true ↔ pat <:+: s
  | [], pat => by
    simp [containsSub, List.isEmpty_iff, List.infix_nil]
  | c :: cs, pat => by
    simp only [containsSub, Bool.or_eq_true, containsSub_iff cs pat,
      List.isPrefixOf_iff_prefix]
    exact ( List.infix_cons_iff).symm

/-- If the pattern does not occur, `str.replace(pat, rep, 1)` is the
identity. -/
theorem replaceFirst_of_not_sub {pat : List Char} (rep : List Char)
    (hne : pat ≠ []) :
    ∀ (s : List Char), ¬ pat <:+: s → replaceFirst s pat rep = s
  | [], _ => by
    simp [replaceFirst, List.isEmpty_iff, hne]
  | c :: cs, h => by
    have hp : pat.isPrefixOf (c :: cs) = false := by
      apply Bool.eq_false_iff.2
      intro hb
      exact h (( List.isPrefixOf_iff_prefix).1 hb).isInfix
    have hcs : ¬ pat <:+: cs := fun hin =>
      h (( List.infix_cons_iff).2 (Or.inr hin))
    simp [replaceFirst, hp, replaceFirst_of_not_sub rep hne cs hcs]

/-- `str.replace(pat, rep, 1)` rewrites exactly the split whose prefix
contains no earlier occurrence. -/
theorem replaceFirst_split (pat rep : List Char) :
    ∀ (pre suf : List Char),
      (∀ i, i < pre.length → ¬ pat <+: (pre ++ pat ++ suf).drop i) →
      replaceFirst (pre ++ pat ++ suf) pat rep = pre ++ rep ++ suf
  | [], suf, _ => by
    cases h : pat ++ suf with
    | nil =>
      obtain ⟨h1, h2⟩ := List.append_eq_nil.1 h
      subst h1; subst h2
      simp [replaceFirst]
    | cons c cs =>
      have hp : pat.isPrefixOf (c :: cs) = true := by
        rw [← h]
        exact ( List.isPrefixOf_iff_prefix).2 (List.prefix_append pat suf)
      have hdrop : (c :: cs).drop pat.length = suf := by
        rw [← h]; exact List.drop_left pat suf
      simp only [List.nil_append, h, replaceFirst, hp, if_true, hdrop]
  | c :: pre', suf, hfirst => by
    have h0 : ¬ pat <+: ((c :: pre') ++ pat ++ suf) := by
      simpa using hfirst 0 (by simp)
    have hp : pat.isPrefixOf (c :: (pre' ++ pat ++ suf)) = false := by
      apply Bool.eq_false_iff.2
      intro hb
      exact h0 (by simpa using ( List.isPrefixOf_iff_prefix).1 hb)
    have hrec := replaceFirst_split pat rep pre' suf
      (fun i hi => by simpa using hfirst (i + 1) (by simpa using hi))
    have h0' : ¬ pat <+: c :: (pre' ++ (pat ++ suf)) := by simpa using h0
    have hrec' : replaceFirst (pre' ++ (pat ++ suf)) pat rep
        = pre' ++ (rep ++ suf) := by simpa using hrec
    simp only [List.cons_append]
    simp [replaceFirst, h0', hrec']

/-- Any occurrence of a nonempty pattern can be realised as a split, and
`replaceFirst` rewrites some such split. -/
theorem replaceFirst_sub_exists {pat : List Char} (rep : List Char)
    (hne : pat ≠ []) :
    ∀ (s : List Char), pat <:+: s →
      ∃ pre suf, s = pre ++ pat ++ suf ∧
        replaceFirst s pat rep = pre ++ rep ++ suf
  | [], h => absurd (List.infix_nil.1 h) hne
  | c :: cs, h => by
    by_cases hp : pat.isPrefixOf (c :: cs) = true
    · obtain ⟨t, ht⟩ := ( List.isPrefixOf_iff_prefix).1 hp
      refine ⟨[], t, by simp [ht.symm], ?_⟩
      have hdrop : (c :: cs).drop pat.length = t := by
        rw [← ht]; exact List.drop_left pat t
      simp [replaceFirst, hp, hdrop]
    · have hcs : pat <:+: cs := by
        rcases ( List.infix_cons_iff).1 h with h1 | h1
        · exact absurd (( List.isPrefixOf_iff_prefix).2 h1) hp
        · exact h1
      obtain ⟨pre', suf, hs, hr⟩ := replaceFirst_sub_exists rep hne cs hcs
      refine ⟨c :: pre', suf, by simp [hs], ?_⟩
      simp [replaceFirst, hp, hr]

/-! ### Length bookkeeping for the distractor pipeline -/

theorem selectGo_length_le {a : List Char} {N : Nat} :
    ∀ (pool acc : List (List Char)), acc.length < N →
      (selectGo a N acc pool).length ≤ N
  | [], acc, h => by simpa [selectGo] using Nat.le_of_lt h
  | d :: ds, acc, h => by
    simp only [selectGo]
    split
    · split
      · next h2 =>
        simp only [List.length_append, List.length_cons, List.length_nil]
        omega
      · next h2 =>
        exact selectGo_length_le ds (acc ++ [d])
          (by simp only [List.length_append, List.length_cons,
                List.length_nil, Nat.not_le] at h2 ⊢; omega)
    · exact selectGo_length_le ds acc h

theorem selectFinal_length_le {a : List Char} {N : Nat}
    (hN : 0 < N) (pool : List (List Char)) :
    (selectFinal a N pool).length ≤ N :=
  selectGo_length_le pool [] (by simpa using hN)

theorem padCount_length :
    ∀ (n : Nat) (l : List (List Char)), (padCount l n).length = l.length + n
  | 0, _ => rfl
  | n + 1, l => by
    simp only [padCount]
    rw [padCount_length n]
    simp
    omega

theorem padPlaceholders_length {l : List (List Char)} {N : Nat}
    (h : l.length ≤ N) : (padPlaceholders l N).length = N := by
  unfold padPlaceholders
  rw [padCount_length]
  omega

theorem buildOptions_length {doc : Doc} {wn : List Char → List (List Char)}
    {r : SentRand} {N : Nat} {a : List Char} (hN : 1 ≤ N)
    (hshuf : ∀ l, (r.shuffleOptions l).Perm l)
    (hsamp : ∀ (l : List (List Char)) k, k ≤ l.length →
      (r.sample l k).length = k) :
    (buildOptions doc wn r N a).length = N + 1 := by
  simp only [buildOptions]
  have hfD : (selectFinal a N (poolFor doc wn r N a)).length ≤ N :=
    selectFinal_length_le (by omega) _
  set fD := selectFinal a N (poolFor doc wn r N a) with hfDdef
  have hpad : (padPlaceholders fD N).length = N := padPlaceholders_length hfD
  have hs : (r.sample (padPlaceholders fD N)
      (min (padPlaceholders fD N).length N)).length
      = min (padPlaceholders fD N).length N :=
    hsamp _ _ (Nat.min_le_left _ _)
  have hp := (hshuf (a :: r.sample (padPlaceholders fD N)
      (min (padPlaceholders fD N).length N))).length_eq
  rw [hp, List.length_cons, hs, hpad, Nat.min_self]

/-- Destructure membership in `generate_mcq_flashcards`: the card comes
from some sentence, with its fields determined by `chooseQA` and
`buildOptions` there. -/
theorem mem_generate (nlp : List Char → Doc)
    (wn : List Char → List (List Char)) (rand : Nat → SentRand)
    (text : List Char) (N : Nat) (card : Flashcard)
    (hcard : card ∈ generate_mcq_flashcards nlp wn rand text N) :
    ∃ i sent qa, (i, sent) ∈ (nlp text).sents.enum ∧
      chooseQA sent = some qa ∧
      card = { type := "mcq", question := pyStrip qa.1, answer := pyStrip qa.2
               options := buildOptions (nlp text) wn (rand i) N qa.2 } := by
  unfold generate_mcq_flashcards at hcard
  obtain ⟨p, hp, hps⟩ := List.mem_filterMap.1 hcard
  simp only [processSent] at hps
  obtain ⟨qa, hqa, hEq⟩ := Option.map_eq_some'.1 hps
  exact ⟨p.1, p.2, qa, hp, hqa, hEq.symm⟩

/-! ### Claims C2, C6, C8, C9, C10 -/

/-- Claim C2 (confirmed): for every distractor count `N ≥ 1` and every
random oracle whose shuffles permute their input and whose samples of
size `k ≤ length` return exactly `k` entries, every flashcard returned
by `generate_mcq_flashcards` has an options list of length exactly
`N + 1` — regardless of how few synonyms or fallback candidates the
collaborators provide (placeholder padding tops the list up). -/
theorem c2_options_length (nlp : List Char → Doc)
    (wn : List Char → List (List Char)) (rand : Nat → SentRand)
    (text : List Char) (N : Nat) (hN : 1 ≤ N)
    (hshuf : ∀ i l, ((rand i).shuffleOptions l).Perm l)
    (hsamp : ∀ i (l : List (List Char)) k, k ≤ l.length →
      ((rand i).sample l k).length = k)
    (card : Flashcard)
    (hcard : card ∈ generate_mcq_flashcards nlp wn rand text N) :
    card.options.length = N + 1 := by
  obtain ⟨i, sent, qa, hmem, hqa, hEq⟩ :=
    mem_generate nlp wn rand text N card hcard
  rw [hEq]
  exact buildOptions_length hN (hshuf i) (hsamp i)

/-- Witness for C2 at a concrete document and `N = 3`. -/
theorem c2_options_length_witness :
    1 ≤ 3 ∧ ((generate_mcq_flashcards wNlp wWn idRand wText 3).headD
      default).options.length = 3 + 1 :=
  ⟨by decide,
    c2_options_length wNlp wWn idRand wText 3 (by decide)
      (fun _ l => by simp only [idRand]; exact List.Perm.refl l)
      (fun _ l k hk => by simp only [idRand, List.length_take]; omega)
      _ (by decide)⟩

/-- Claim C6, counterexample: the fallback candidate pool is not
independent of the answer currently being processed — with the same
document, processing answer `Paris` and answer `London` yields different
pools, because candidates case-insensitively equal to the current answer
are excluded (lines 122 and 126). -/
theorem c6_counterexample :
    fallbackPool twoEntDoc "Paris".data ≠ fallbackPool twoEntDoc "London".data := by
  decide

/-- Claim C6 as amended: the fallback pool is drawn from the whole
document's entities and noun tokens and is recomputed per sentence; its
contents depend on the sentence being processed only through that
sentence's answer, and only case-insensitively: any two answers equal up
to case give literally the same pool. -/
theorem c6_pool_depends_only_on_lower_answer (doc : Doc)
    (a1 a2 : List Char) (h : pyLower a1 = pyLower a2) :
    fallbackPool doc a1 = fallbackPool doc a2 := by
  unfold fallbackPool
  simp only [h]

/-- Witness for the amended C6 at concrete inputs. -/
theorem c6_pool_witness :
    pyLower "Paris".data = pyLower "pARIs".data ∧
      fallbackPool twoEntDoc "Paris".data = fallbackPool twoEntDoc "pARIs".data :=
  ⟨by decide, c6_pool_depends_only_on_lower_answer twoEntDoc _ _ (by decide)⟩

/-- Claim C8 (confirmed): when every sentence is rejected — in
particular when the document has no sentences at all — the function
returns the empty list.  (The embedding is a total function, so no
exception can be raised on this path.) -/
theorem c8_no_flashcards (nlp : List Char → Doc)
    (wn : List Char → List (List Char)) (rand : Nat → SentRand)
    (text : List Char) (N : Nat)
    (h : ∀ p ∈ (nlp text).sents.enum,
      processSent (nlp text) wn (rand p.1) N p.2 = none) :
    generate_mcq_flashcards nlp wn rand text N = [] := by
  unfold generate_mcq_flashcards
  exact List.filterMap_eq_nil_iff.2 h

/-- Witness for C8: a document with zero sentences. -/
theorem c8_no_flashcards_witness :
    generate_mcq_flashcards emptyNlp wWn idRand [] 3 = [] :=
  c8_no_flashcards emptyNlp wWn idRand [] 3 (by simp [emptyNlp])

/-- Claim C9 (confirmed, strengthened): the question/answer pairs of the
returned flashcards do not depend on the random oracle at all — so two
calls with the collaborators' responses and the random source held fixed
a fortiori agree on every question/answer pair, randomness affecting
only the option sampling and shuffling. -/
theorem c9_qa_independent_of_rand (nlp : List Char → Doc)
    (wn : List Char → List (List Char)) (r1 r2 : Nat → SentRand)
    (text : List Char) (N : Nat) :
    (generate_mcq_flashcards nlp wn r1 text N).map
        (fun c => (c.question, c.answer)) =
      (generate_mcq_flashcards nlp wn r2 text N).map
        (fun c => (c.question, c.answer)) := by
  unfold generate_mcq_flashcards
  simp only [List.map_filterMap]
  apply List.filterMap_congr
  intro p _
  simp only [processSent, Option.map_map]
  cases hq : chooseQA p.2 <;> simp

/-- Claim C10 (confirmed): the sample size `min (len final) N` can never
exceed the population, and for `N = 0` (below the spec's stated minimum)
the call still succeeds, every produced flashcard's options list being
exactly the one-element list holding the raw answer candidate. -/
theorem c10_zero_distractors (nlp : List Char → Doc)
    (wn : List Char → List (List Char)) (rand : Nat → SentRand)
    (text : List Char)
    (hshuf : ∀ i l, ((rand i).shuffleOptions l).Perm l)
    (hsamp : ∀ i (l : List (List Char)) k, k ≤ l.length →
      ((rand i).sample l k).length = k)
    (card : Flashcard)
    (hcard : card ∈ generate_mcq_flashcards nlp wn rand text 0) :
    (∀ (fd : List (List Char)) (n : Nat),
        min (padPlaceholders fd n).length n ≤ (padPlaceholders fd n).length) ∧
      ∃ x, card.options = [x] ∧ card.answer = pyStrip x := by
  refine ⟨fun fd n => Nat.min_le_left _ _, ?_⟩
  obtain ⟨i, sent, qa, hmem, hqa, hEq⟩ :=
    mem_generate nlp wn rand text 0 card hcard
  refine ⟨qa.2, ?_, by rw [hEq]⟩
  rw [hEq]
  simp only [buildOptions]
  set P := padPlaceholders (selectFinal qa.2 0
    (poolFor (nlp text) wn (rand i) 0 qa.2)) 0 with hP
  have hlen : ((rand i).sample P (min P.length 0)).length = min P.length 0 :=
    hsamp i P _ (Nat.min_le_left _ _)
  rw [Nat.min_zero] at hlen
  have hnil : (rand i).sample P (min P.length 0) = [] := by
    rw [← List.length_eq_zero]
    rw [Nat.min_zero]
    simpa [Nat.min_zero] using hlen
  rw [hnil]
  exact List.perm_singleton.1 (hshuf i [qa.2])

/-- Witness for C10 at a concrete document and `N = 0`. -/
theorem c10_zero_distractors_witness :
    ∃ x, ((generate_mcq_flashcards wNlp wWn idRand wText 0).headD
        default).options = [x] ∧
      ((generate_mcq_flashcards wNlp wWn idRand wText 0).headD
        default).answer = pyStrip x :=
  (c10_zero_distractors wNlp wWn idRand wText
    (fun _ l => by simp only [idRand]; exact List.Perm.refl l)
    (fun _ l k hk => by simp only [idRand, List.length_take]; omega)
    _ (by decide)).2

/-- A chosen answer is never the empty string: the length check of
line 101 would have rejected it. -/
theorem codeChosen_ne_nil (sent : Sent) (a : List Char)
    (h : codeChosen sent = some a) : a ≠ [] := by
  cases hp : pickAnswer sent with
  | none =>
    have heq : codeChosen sent = none := by simp only [codeChosen, hp]
    rw [heq] at h; cases h
  | some t =>
    by_cases hlen : (pyStrip t).length < 3
    · have heq : codeChosen sent = none := by
        simp only [codeChosen, hp]
        rw [if_pos hlen]
      rw [heq] at h; cases h
    · have heq : codeChosen sent = some t := by
        simp only [codeChosen, hp]
        rw [if_neg hlen]
      rw [heq] at h
      obtain rfl := Option.some.inj h
      intro hnil
      rw [hnil] at hlen
      exact hlen (by decide)

/-- Claim C4 (confirmed): for every sentence with a chosen answer, the
sentence is rejected (no flashcard emitted) exactly when, after the
replacement, the marker is absent from the result while the lowercased
answer still occurs in the lowercased result — with no restriction on
how the answer sits in the sentence; moreover the replacement rewrites
exactly the first case-sensitive occurrence of the answer (any split of
the stripped sentence with no earlier occurrence is the one rewritten),
and leaves the sentence unchanged when the answer does not occur
case-sensitively at all. -/
theorem c4_masking (sent : Sent) (a pre suf : List Char) (doc : Doc)
    (wn : List Char → List (List Char)) (r : SentRand) (N : Nat)
    (hne : pyStrip sent.text ≠ [])
    (hch : codeChosen sent = some a) :
    (processSent doc wn r N sent = none ↔
      (¬ marker <:+: replaceFirst (pyStrip sent.text) a marker ∧
        pyLower a <:+: pyLower (replaceFirst (pyStrip sent.text) a marker))) ∧
      (pyStrip sent.text = pre ++ a ++ suf →
        (∀ i, i < pre.length → ¬ a <+: (pyStrip sent.text).drop i) →
        replaceFirst (pyStrip sent.text) a marker = pre ++ marker ++ suf) ∧
      (¬ a <:+: pyStrip sent.text →
        replaceFirst (pyStrip sent.text) a marker = pyStrip sent.text) := by
  refine ⟨?_, ?_, ?_⟩
  · have hmap : processSent doc wn r N sent = none ↔ chooseQA sent = none := by
      simp [processSent]
    rw [hmap]
    simp only [chooseQA, hch]
    rw [if_neg (by simpa [List.isEmpty_iff] using hne)]
    rw [← containsSub_iff (pyLower (replaceFirst (pyStrip sent.text) a marker))
        (pyLower a),
      ← containsSub_iff (replaceFirst (pyStrip sent.text) a marker) marker]
    cases h1 : containsSub (pyLower (replaceFirst (pyStrip sent.text) a marker))
        (pyLower a) <;>
      cases h2 : containsSub (replaceFirst (pyStrip sent.text) a marker) marker <;>
        simp [h1, h2]
  · intro hsplit hfirst
    rw [hsplit]
    exact replaceFirst_split a marker pre suf (by rw [← hsplit]; exact hfirst)
  · intro hnot
    exact replaceFirst_of_not_sub marker (codeChosen_ne_nil sent a hch)
      (pyStrip sent.text) hnot

/-- Witness for C4: the sentence `bonjour PARIS hello.` with chosen
answer `Paris`, which occurs only in a different case, so the
replacement is the identity, the marker is absent, the lowercased
answer remains, and the guard fires: the rejection side of the
biconditional is realized concretely. -/
theorem c4_masking_witness :
    (processSent wDoc wWn (idRand 0) 3 mismatchSent = none ↔
      (¬ marker <:+: replaceFirst (pyStrip mismatchSent.text) "Paris".data marker ∧
        pyLower "Paris".data <:+:
          pyLower (replaceFirst (pyStrip mismatchSent.text) "Paris".data marker))) ∧
      processSent wDoc wWn (idRand 0) 3 mismatchSent = none :=
  ⟨(c4_masking mismatchSent "Paris".data [] [] wDoc wWn (idRand 0) 3
      (by decide) (by decide)).1, by decide⟩

/-- Claim C5 (confirmed): on any sentence whose entity spans carry
non-empty text (as real annotator spans do), the code's answer choice
coincides with the specification's Answer Picker — first accepted
entity, else first noun chunk with more than one word, more than five
characters and root tag `NOUN`, rejecting candidates whose trimmed text
is shorter than three characters — and a rejected sentence produces no
flashcard. -/
theorem c5_answer_picker (sent : Sent) (doc : Doc)
    (wn : List Char → List (List Char)) (r : SentRand) (N : Nat)
    (hents : ∀ e ∈ sent.ents, e.text ≠ []) :
    codeChosen sent = spec_answerPicker sent ∧
      (spec_answerPicker sent = none → processSent doc wn r N sent = none) := by
  have hmain : codeChosen sent = spec_answerPicker sent := by
    unfold codeChosen pickAnswer candFrom spec_answerPicker fromChunk
    cases hf : sent.ents.find? (fun e => acceptedLabels.contains e.label) with
    | none =>
      simp only [hf, Option.map_none']
      cases hc : sent.chunks.find? (fun c =>
          decide (1 < (pySplitWs c.text).length) && decide (5 < c.text.length) &&
            (c.rootPos == "NOUN")) with
      | none => simp
      | some ch =>
        by_cases hce : ch.text = []
        · simp [hce, pyStrip, pyLstrip]
        · simp [List.isEmpty_iff, hce]
    | some e =>
      have hne := hents e (List.mem_of_find?_eq_some hf)
      simp [hf, List.isEmpty_iff, hne]
  refine ⟨hmain, fun hnone => ?_⟩
  have hq : chooseQA sent = none := by
    simp [chooseQA, hmain, hnone]
  simp [processSent, hq]

/-- Witness for C5 on the concrete sentence of `wDoc`. -/
theorem c5_answer_picker_witness :
    codeChosen wSent = spec_answerPicker wSent ∧
      (spec_answerPicker wSent = none →
        processSent wDoc wWn (idRand 0) 3 wSent = none) :=
  c5_answer_picker wSent wDoc wWn (idRand 0) 3 (by decide)

/-! ### Words produced by `split()` and the synonym key (claim C7) -/

theorem contains_char_iff (l : List Char) (c : Char) :
    l.contains c = true ↔ c ∈ l := by
  simp [List.contains_iff_exists_mem_beq, eq_comm]

theorem splitWsAux_words :
    ∀ (l acc : List Char), (∀ c ∈ acc, c.isWhitespace = false) →
      ∀ w ∈ splitWsAux l acc, w ≠ [] ∧ ∀ c ∈ w, c.isWhitespace = false
  | [], acc, hacc => by
    intro w hw
    simp only [splitWsAux] at hw
    split at hw
    · cases hw
    · next hne =>
      have hw' := List.mem_singleton.1 hw
      subst hw'
      refine ⟨by simpa [List.isEmpty_iff] using hne, ?_⟩
      intro c hc
      exact hacc c (List.mem_reverse.1 hc)
  | ch :: cs, acc, hacc => by
    intro w hw
    simp only [splitWsAux] at hw
    split at hw
    · next hws =>
      split at hw
      · exact splitWsAux_words cs [] (by simp) w hw
      · next hne =>
        rcases List.mem_cons.1 hw with hw1 | hw1
        · subst hw1
          refine ⟨by simpa [List.isEmpty_iff] using hne, ?_⟩
          intro c hc
          exact hacc c (List.mem_reverse.1 hc)
        · exact splitWsAux_words cs [] (by simp) w hw1
    · next hws =>
      refine splitWsAux_words cs (ch :: acc) ?_ w hw
      intro c hc
      rcases List.mem_cons.1 hc with hc | hc
      · subst hc; exact Bool.eq_false_iff.2 hws
      · exact hacc c hc

theorem pySplitWs_words (l : List Char) :
    ∀ w ∈ pySplitWs l, w ≠ [] ∧ ∀ c ∈ w, c.isWhitespace = false :=
  splitWsAux_words l [] (by simp)

/-- Elements that `selectGo` collects beyond its accumulator never equal
the answer case-insensitively. -/
theorem selectGo_not_answer {a : List Char} {N : Nat} :
    ∀ (pool acc : List (List Char)),
      (∀ x ∈ acc, pyLower x ≠ pyLower a) →
      ∀ x ∈ selectGo a N acc pool, pyLower x ≠ pyLower a
  | [], acc, hacc => by
    intro x hx
    simp only [selectGo] at hx
    exact hacc x hx
  | d :: ds, acc, hacc => by
    intro x hx
    simp only [selectGo] at hx
    split at hx
    · next hcond =>
      have hacc' : ∀ y ∈ acc ++ [d], pyLower y ≠ pyLower a := by
        intro y hy
        rcases List.mem_append.1 hy with hy | hy
        · exact hacc y hy
        · rcases List.mem_singleton.1 hy with rfl
          exact hcond.1
      split at hx
      · exact hacc' x hx
      · exact selectGo_not_answer ds (acc ++ [d]) hacc' x hx
    · exact selectGo_not_answer ds acc hacc x hx

theorem selectFinal_not_answer {a : List Char} {N : Nat}
    (pool : List (List Char)) :
    ∀ x ∈ selectFinal a N pool, pyLower x ≠ pyLower a :=
  selectGo_not_answer pool [] (by simp)

/-- Counterexample to claim C7: the filter of line 69 compares each
synonym against the lookup key only, so for the answer `ice cream`
(key `cream`) the lexical lemma `ice_cream` turns into the full answer
`ice cream` and stays in the candidate pool of possible distractors;
moreover the key test of line 114 is a space-character test, so the
answer `New\tYork` (tab-separated) splits into two words yet keys to
the whole answer, not its last word. -/
theorem c7_counterexample :
    "ice cream".data ∈
        poolFor (emptyNlp []) c7Wn (idRand 0) 1 "ice cream".data ∧
      1 < (pySplitWs "New\tYork".data).length ∧
      synKey "New\tYork".data ≠ (pySplitWs "New\tYork".data).getLastD [] := by
  decide

/-- Claim C7 (corrected): the synonym lookup key is the answer's last
whitespace-delimited word exactly when the answer contains a space
character, and the whole answer otherwise; for a cleanly spaced answer
this is the last word precisely when the answer has more than one
word. The lexical lookup never returns the key itself
case-insensitively; strings case-insensitively equal to the full
answer are removed only later, by the final distractor selection,
whatever the candidate pool. -/
theorem c7_synonym_key (wn : List Char → List (List Char))
    (w a : List Char) (N : Nat) (pool : List (List Char)) :
    (a.contains ' ' = true → synKey a = (pySplitWs a).getLastD []) ∧
      (a.contains ' ' = false → synKey a = a) ∧
      (isCleanPhrase a →
        (1 < (pySplitWs a).length → synKey a = (pySplitWs a).getLastD []) ∧
          ((pySplitWs a).length = 1 → synKey a = a)) ∧
      (∀ x ∈ get_synonyms wn w, pyLower x ≠ pyLower w) ∧
      (∀ x ∈ selectFinal a N pool, pyLower x ≠ pyLower a) := by
  refine ⟨?_, ?_, ?_, ?_, selectFinal_not_answer pool⟩
  · intro h
    unfold synKey
    rw [if_pos h]
  · intro h
    unfold synKey
    rw [if_neg (by rw [h]; exact Bool.false_ne_true)]
  · intro hclean
    obtain ⟨hne, heq⟩ := hclean
    constructor
    · intro hlen
      have hsp : ' ' ∈ a := by
        rcases hws : pySplitWs a with _ | ⟨w1, rest⟩
        · rw [hws] at hlen; simp at hlen
        · rcases hrest : rest with _ | ⟨w2, rest2⟩
          · rw [hws, hrest] at hlen; simp at hlen
          · rw [heq, hws, hrest]
            simp [joinSp]
      unfold synKey
      rw [if_pos ((contains_char_iff a ' ').2 hsp)]
    · intro hlen
      rcases hws : pySplitWs a with _ | ⟨w1, rest⟩
      · rw [hws] at hlen; simp at hlen
      · rcases hrest : rest with _ | ⟨w2, rest2⟩
        · have haw : a = w1 := by
            rw [heq, hws, hrest]; rfl
          have hnosp : ¬ ' ' ∈ a := by
            intro hmem
            have hw := pySplitWs_words a w1 (by rw [hws, hrest]; simp)
            have := hw.2 ' ' (by rw [← haw]; exact hmem)
            simp at this
          unfold synKey
          rw [if_neg (by simpa using fun hb => hnosp ((contains_char_iff a ' ').1 hb))]
        · rw [hws, hrest] at hlen; simp at hlen
  · intro x hx
    unfold get_synonyms at hx
    have hx2 := List.mem_dedup.1 hx
    have := (List.mem_filter.1 hx2).2
    simpa using this

/-- Witness for C7 at the concrete two-word answer `Eiffel Tower`:
it contains a space, keys to its last word, and no string
case-insensitively equal to it survives the final selection from a
concrete pool. -/
theorem c7_synonym_key_witness :
    synKey "Eiffel Tower".data =
        (pySplitWs "Eiffel Tower".data).getLastD [] ∧
      (∀ x ∈ selectFinal "Eiffel Tower".data 3 ["Paris".data],
        pyLower x ≠ pyLower "Eiffel Tower".data) :=
  ⟨(c7_synonym_key wWn "cream".data "Eiffel Tower".data 3
      ["Paris".data]).1 (by decide),
    (c7_synonym_key wWn "cream".data "Eiffel Tower".data 3
      ["Paris".data]).2.2.2.2⟩

/-! ### Decimal renderings and placeholder strings -/

theorem natCharsGo_mono :
    ∀ (f f' n : Nat), n < f → f ≤ f' → natCharsGo f n = natCharsGo f' n
  | 0, _, n, h, _ => absurd h (Nat.not_lt_zero n)
  | f + 1, f', n, h, hle => by
    obtain ⟨g, rfl⟩ : ∃ g, f' = g + 1 := ⟨f' - 1, by omega⟩
    simp only [natCharsGo]
    by_cases h10 : n < 10
    · simp [h10]
    · simp only [h10, if_false]
      rw [natCharsGo_mono f g (n / 10)
        (by have := Nat.div_lt_self (show 0 < n by omega) (show 1 < 10 by omega)
            omega)
        (by omega)]

theorem natChars_unfold (n : Nat) :
    natChars n = if n < 10 then [Nat.digitChar n]
      else natChars (n / 10) ++ [Nat.digitChar (n % 10)] := by
  by_cases h10 : n < 10
  · simp [natChars, natCharsGo, h10]
  · have hd : n / 10 < n :=
      Nat.div_lt_self (by omega) (by omega)
    have hm : natCharsGo (n / 10 + 1) (n / 10) = natCharsGo n (n / 10) :=
      natCharsGo_mono (n / 10 + 1) n (n / 10) (by omega) (by omega)
    rw [if_neg h10]
    show natCharsGo (n + 1) n = natChars (n / 10) ++ [Nat.digitChar (n % 10)]
    rw [show natCharsGo (n + 1) n
        = if n < 10 then [Nat.digitChar n]
          else natCharsGo n (n / 10) ++ [Nat.digitChar (n % 10)] from rfl]
    rw [if_neg h10, ← hm]
    rfl

theorem natChars_ne_nil (n : Nat) : natChars n ≠ [] := by
  rw [natChars_unfold]
  split <;> simp

theorem digitChar_lower : ∀ n, n < 10 → (Nat.digitChar n).toLower = Nat.digitChar n := by
  decide

theorem digitChar_inj10 :
    ∀ m, m < 10 → ∀ n, n < 10 → Nat.digitChar m = Nat.digitChar n → m = n := by
  decide

theorem natChars_lower (n : Nat) :
    (natChars n).map Char.toLower = natChars n := by
  induction n using Nat.strong_induction_on with
  | _ n ih =>
    rw [natChars_unfold]
    by_cases h10 : n < 10
    · simp [h10, digitChar_lower n h10]
    · have hd : n / 10 < n := Nat.div_lt_self (by omega) (by omega)
      simp [h10, ih (n / 10) hd,
        digitChar_lower (n % 10) (Nat.mod_lt n (by omega))]

theorem natChars_inj : ∀ (m n : Nat), natChars m = natChars n → m = n := by
  intro m
  induction m using Nat.strong_induction_on with
  | _ m ih =>
    intro n h
    rw [natChars_unfold m, natChars_unfold n] at h
    by_cases hm : m < 10 <;> by_cases hn : n < 10
    · simp only [hm, hn, if_true, List.cons.injEq, and_true] at h
      exact digitChar_inj10 m hm n hn h
    · simp only [hm, hn, if_true, if_false] at h
      have hlen := congrArg List.length h
      simp only [List.length_cons, List.length_append, List.length_nil,
        List.length_singleton] at hlen
      exact absurd
        (List.length_eq_zero.1 (show (natChars (n / 10)).length = 0 by omega))
        (natChars_ne_nil (n / 10))
    · simp only [hm, hn, if_true, if_false] at h
      have hlen := congrArg List.length h
      simp only [List.length_cons, List.length_append, List.length_nil,
        List.length_singleton] at hlen
      exact absurd
        (List.length_eq_zero.1 (show (natChars (m / 10)).length = 0 by omega))
        (natChars_ne_nil (m / 10))
    · simp only [hm, hn, if_false] at h
      have hrev := congrArg List.reverse h
      simp only [List.reverse_append, List.reverse_cons, List.reverse_nil,
        List.nil_append, List.singleton_append, List.cons.injEq] at hrev
      have h1 : m % 10 = n % 10 :=
        digitChar_inj10 _ (Nat.mod_lt m (by omega)) _ (Nat.mod_lt n (by omega))
          hrev.1
      have h2 : m / 10 = n / 10 :=
        ih (m / 10) (Nat.div_lt_self (by omega) (by omega)) (n / 10)
          (List.reverse_injective hrev.2)
      omega

theorem placeholder_lower (k : Nat) :
    pyLower (placeholder k) = "option ".data ++ natChars k := by
  have h1 : "Option ".data.map Char.toLower = "option ".data := by decide
  simp [placeholder, pyLower, h1, natChars_lower k]

theorem placeholder_lower_inj {k1 k2 : Nat}
    (h : pyLower (placeholder k1) = pyLower (placeholder k2)) : k1 = k2 := by
  rw [placeholder_lower, placeholder_lower] at h
  exact natChars_inj _ _ (List.append_cancel_left h)

theorem mem_range1_iff (k N : Nat) : k ∈ List.range' 1 N ↔ 1 ≤ k ∧ k ≤ N := by
  rw [List.mem_range']
  constructor
  · rintro ⟨i, hi, rfl⟩; omega
  · rintro ⟨h1, h2⟩; exact ⟨k - 1, by omega, by omega⟩

/-! ### Membership and uniqueness through the distractor pipeline -/

theorem padCount_mem :
    ∀ (n : Nat) (l : List (List Char)) (x : List Char), x ∈ padCount l n →
      x ∈ l ∨ ∃ k, l.length + 1 ≤ k ∧ k ≤ l.length + n ∧ x = placeholder k
  | 0, _, _, h => Or.inl h
  | n + 1, l, x, h => by
    rcases padCount_mem n (l ++ [placeholder (l.length + 1)]) x h with h1 | h1
    · rcases List.mem_append.1 h1 with h2 | h2
      · exact Or.inl h2
      · exact Or.inr ⟨l.length + 1, by omega, by omega, List.mem_singleton.1 h2⟩
    · obtain ⟨k, hk1, hk2, hk3⟩ := h1
      simp only [List.length_append, List.length_singleton] at hk1 hk2
      exact Or.inr ⟨k, by omega, by omega, hk3⟩

theorem padCount_pairwise :
    ∀ (n : Nat) (l : List (List Char)),
      l.Pairwise (fun x y => pyLower x ≠ pyLower y) →
      (∀ x ∈ l, ∀ k, l.length + 1 ≤ k → k ≤ l.length + n →
        pyLower x ≠ pyLower (placeholder k)) →
      (padCount l n).Pairwise (fun x y => pyLower x ≠ pyLower y)
  | 0, _, hp, _ => hp
  | n + 1, l, hp, hcol => by
    apply padCount_pairwise n (l ++ [placeholder (l.length + 1)])
    · rw [List.pairwise_append]
      refine ⟨hp, by simp, ?_⟩
      intro x hx y hy
      rcases List.mem_singleton.1 hy with rfl
      exact hcol x hx (l.length + 1) (by omega) (by omega)
    · intro x hx k hk1 hk2
      simp only [List.length_append, List.length_singleton] at hk1 hk2
      rcases List.mem_append.1 hx with hx1 | hx1
      · exact hcol x hx1 k (by omega) (by omega)
      · rcases List.mem_singleton.1 hx1 with rfl
        intro heq
        have := placeholder_lower_inj heq
        omega

theorem selectGo_pairwise {a : List Char} {N : Nat} :
    ∀ (pool acc : List (List Char)),
      acc.Pairwise (fun x y => pyLower x ≠ pyLower y) →
      (selectGo a N acc pool).Pairwise (fun x y => pyLower x ≠ pyLower y)
  | [], acc, hp => by simpa [selectGo] using hp
  | d :: ds, acc, hp => by
    simp only [selectGo]
    split
    · next hcond =>
      have hp' : (acc ++ [d]).Pairwise (fun x y => pyLower x ≠ pyLower y) := by
        rw [List.pairwise_append]
        refine ⟨hp, by simp, ?_⟩
        intro x hx y hy
        rcases List.mem_singleton.1 hy with rfl
        intro heq
        exact hcond.2 (List.mem_map.2 ⟨x, hx, heq⟩)
      split
      · exact hp'
      · exact selectGo_pairwise ds (acc ++ [d]) hp'
    · exact selectGo_pairwise ds acc hp

theorem selectGo_subset {a : List Char} {N : Nat} :
    ∀ (pool acc : List (List Char)) (x : List Char),
      x ∈ selectGo a N acc pool → x ∈ acc ∨ x ∈ pool
  | [], acc, x, h => Or.inl (by simpa [selectGo] using h)
  | d :: ds, acc, x, h => by
    simp only [selectGo] at h
    split at h
    · split at h
      · rcases List.mem_append.1 h with h1 | h1
        · exact Or.inl h1
        · rw [List.mem_singleton.1 h1]
          exact Or.inr (List.mem_cons_self d ds)
      · rcases selectGo_subset ds (acc ++ [d]) x h with h1 | h1
        · rcases List.mem_append.1 h1 with h2 | h2
          · exact Or.inl h2
          · rw [List.mem_singleton.1 h2]
            exact Or.inr (List.mem_cons_self d ds)
        · exact Or.inr (List.mem_cons_of_mem d h1)
    · rcases selectGo_subset ds acc x h with h1 | h1
      · exact Or.inl h1
      · exact Or.inr (List.mem_cons_of_mem d h1)

theorem extendPool_subset :
    ∀ (cands acc : List (List Char)) (cap : Nat) (x : List Char),
      x ∈ extendPool acc cands cap → x ∈ acc ∨ x ∈ cands
  | [], acc, _, x, h => Or.inl (by simpa [extendPool] using h)
  | d :: ds, acc, cap, x, h => by
    simp only [extendPool] at h
    split at h
    · rcases extendPool_subset ds acc cap x h with h1 | h1
      · exact Or.inl h1
      · exact Or.inr (List.mem_cons_of_mem d h1)
    · split at h
      · rcases List.mem_append.1 h with h1 | h1
        · exact Or.inl h1
        · rw [List.mem_singleton.1 h1]
          exact Or.inr (List.mem_cons_self d ds)
      · rcases extendPool_subset ds (acc ++ [d]) cap x h with h1 | h1
        · rcases List.mem_append.1 h1 with h2 | h2
          · exact Or.inl h2
          · rw [List.mem_singleton.1 h2]
            exact Or.inr (List.mem_cons_self d ds)
        · exact Or.inr (List.mem_cons_of_mem d h1)

theorem fallbackPool_mem (doc : Doc) (a x : List Char)
    (h : x ∈ fallbackPool doc a) :
    (∃ e ∈ doc.ents, x = e.text) ∨ ∃ t ∈ doc.tokens, x = t.text := by
  unfold fallbackPool at h
  rcases List.mem_append.1 h with h1 | h1
  · obtain ⟨e, he, hex⟩ := List.mem_map.1 h1
    exact Or.inl ⟨e, (List.mem_filter.1 he).1, hex.symm⟩
  · obtain ⟨t, ht, htx⟩ := List.mem_map.1 h1
    exact Or.inr ⟨t, (List.mem_filter.1 ht).1, htx.symm⟩

theorem poolFor_mem (doc : Doc) (wn : List Char → List (List Char))
    (r : SentRand) (N : Nat) (a x : List Char)
    (hshufFall : ∀ l, (r.shuffleFallback l).Perm l)
    (h : x ∈ poolFor doc wn r N a) :
    x ∈ get_synonyms wn (synKey a) ∨ x ∈ fallbackPool doc a := by
  simp only [poolFor] at h
  split at h
  · rcases extendPool_subset _ _ _ x h with h1 | h1
    · exact Or.inl h1
    · exact Or.inr ((hshufFall (fallbackPool doc a)).mem_iff.1 h1)
  · exact Or.inl h

theorem candFrom_origin (sent : Sent) (t : List Char)
    (h : candFrom sent = some t) :
    (∃ e ∈ sent.ents, t = e.text) ∨ ∃ c ∈ sent.chunks, t = c.text := by
  have hchunk : ∀ u, fromChunk sent = some u → ∃ c ∈ sent.chunks, u = c.text := by
    intro u hu
    unfold fromChunk at hu
    obtain ⟨c, hc, hcu⟩ := Option.map_eq_some'.1 hu
    exact ⟨c, List.mem_of_find?_eq_some hc, hcu.symm⟩
  cases hf : sent.ents.find? (fun e => acceptedLabels.contains e.label) with
  | none =>
    have heq : candFrom sent = fromChunk sent := by
      simp only [candFrom, hf, Option.map_none']
    rw [heq] at h
    exact Or.inr (hchunk t h)
  | some e =>
    by_cases hemp : e.text.isEmpty
    · have heq : candFrom sent = fromChunk sent := by
        simp only [candFrom, hf, Option.map_some']
        rw [if_pos hemp]
      rw [heq] at h
      exact Or.inr (hchunk t h)
    · have heq : candFrom sent = some e.text := by
        simp only [candFrom, hf, Option.map_some']
        rw [if_neg hemp]
      rw [heq] at h
      exact Or.inl ⟨e, List.mem_of_find?_eq_some hf, (Option.some.inj h).symm⟩

theorem pickAnswer_origin (sent : Sent) (t : List Char)
    (h : pickAnswer sent = some t) :
    (∃ e ∈ sent.ents, t = e.text) ∨ ∃ c ∈ sent.chunks, t = c.text := by
  cases hc : candFrom sent with
  | none =>
    have heq : pickAnswer sent = none := by simp only [pickAnswer, hc]
    rw [heq] at h; cases h
  | some u =>
    by_cases hemp : u.isEmpty
    · have heq : pickAnswer sent = none := by
        simp only [pickAnswer, hc]
        rw [if_pos hemp]
      rw [heq] at h; cases h
    · have heq : pickAnswer sent = some u := by
        simp only [pickAnswer, hc]
        rw [if_neg hemp]
      rw [heq] at h
      obtain rfl := Option.some.inj h
      exact candFrom_origin sent u hc

theorem codeChosen_origin (sent : Sent) (a : List Char)
    (h : codeChosen sent = some a) :
    (∃ e ∈ sent.ents, a = e.text) ∨ ∃ c ∈ sent.chunks, a = c.text := by
  cases hp : pickAnswer sent with
  | none =>
    have heq : codeChosen sent = none := by simp only [codeChosen, hp]
    rw [heq] at h; cases h
  | some t =>
    by_cases hlen : (pyStrip t).length < 3
    · have heq : codeChosen sent = none := by
        simp only [codeChosen, hp]
        rw [if_pos hlen]
      rw [heq] at h; cases h
    · have heq : codeChosen sent = some t := by
        simp only [codeChosen, hp]
        rw [if_neg hlen]
      rw [heq] at h
      obtain rfl := Option.some.inj h
      exact pickAnswer_origin sent t hp

theorem chooseQA_inv (sent : Sent) (qa : List Char × List Char)
    (h : chooseQA sent = some qa) :
    codeChosen sent = some qa.2 ∧
      qa.1 = replaceFirst (pyStrip sent.text) qa.2 marker ∧
      pyStrip sent.text ≠ [] ∧
      (containsSub (pyLower qa.1) (pyLower qa.2) = false ∨
        containsSub qa.1 marker = true) := by
  by_cases hne : (pyStrip sent.text).isEmpty
  · have heq : chooseQA sent = none := by
      simp only [chooseQA]
      rw [if_pos hne]
    rw [heq] at h; cases h
  · cases hcc : codeChosen sent with
    | none =>
      have heq : chooseQA sent = none := by
        simp only [chooseQA, hcc]
        rw [if_neg hne]
      rw [heq] at h; cases h
    | some a =>
      by_cases hg : (containsSub
          (pyLower (replaceFirst (pyStrip sent.text) a marker)) (pyLower a) &&
          !containsSub (replaceFirst (pyStrip sent.text) a marker) marker) = true
      · have heq : chooseQA sent = none := by
          simp only [chooseQA, hcc]
          rw [if_neg hne, if_pos hg]
        rw [heq] at h; cases h
      · have heq : chooseQA sent
            = some (replaceFirst (pyStrip sent.text) a marker, a) := by
          simp only [chooseQA, hcc]
          rw [if_neg hne, if_neg hg]
        rw [heq] at h
        obtain rfl := Option.some.inj h
        refine ⟨rfl, rfl, by simpa [List.isEmpty_iff] using hne, ?_⟩
        by_cases hA : containsSub
            (pyLower (replaceFirst (pyStrip sent.text) a marker))
            (pyLower a) = true
        · by_cases hM : containsSub (replaceFirst (pyStrip sent.text) a marker)
              marker = true
          · exact Or.inr hM
          · refine absurd ?_ hg
            rw [Bool.and_eq_true, Bool.not_eq_true']
            exact ⟨hA, Bool.eq_false_iff.2 hM⟩
        · exact Or.inl (Bool.eq_false_iff.2 hA)

theorem mem_of_mem_enumFrom {α : Type} :
    ∀ (l : List α) (n : Nat) (p : Nat × α), p ∈ List.enumFrom n l → p.2 ∈ l
  | [], _, _, h => by cases h
  | a :: as, n, p, h => by
    simp only [List.enumFrom] at h
    rcases List.mem_cons.1 h with h1 | h1
    · rw [h1]
      exact List.mem_cons_self a as
    · exact List.mem_cons_of_mem a (mem_of_mem_enumFrom as (n + 1) p h1)

theorem snd_mem_of_mem_enum {α : Type} {l : List α} {p : Nat × α}
    (h : p ∈ l.enum) : p.2 ∈ l :=
  mem_of_mem_enumFrom l 0 p h

/-- Claim C1, counterexample: with an answer candidate whose text is
literally `Option 1`, padding appends the placeholder `Option 1` and the
produced options list holds the answer twice — the claimed uniqueness
invariant fails on the code as written. -/
theorem c1_counterexample :
    ∃ card ∈ generate_mcq_flashcards phNlp wWn idRand "x".data 1,
      ¬ (card.options.countP (fun o => pyLower o == pyLower card.answer) = 1 ∧
        card.options.Pairwise fun x y => pyLower x ≠ pyLower y) := by
  decide

/-- Claim C1 as amended: the answer appears exactly once in the options
(case-insensitively) and the options hold no case-insensitive
duplicates, provided the annotator's span texts are whitespace-trimmed
and no candidate string (entity, token, chunk or synonym) nor the answer
itself is case-insensitively equal to a padding placeholder
`Option 1` … `Option N`; shuffles are assumed to permute and samples to
draw without positional repetition. -/
theorem c1_options_unique (nlp : List Char → Doc)
    (wn : List Char → List (List Char)) (rand : Nat → SentRand)
    (text : List Char) (N : Nat)
    (hshufFall : ∀ i l, ((rand i).shuffleFallback l).Perm l)
    (hshuf : ∀ i l, ((rand i).shuffleOptions l).Perm l)
    (hsamp : ∀ i (l : List (List Char)) k, k ≤ l.length →
      List.Subperm ((rand i).sample l k) l)
    (htrimE : ∀ s ∈ (nlp text).sents, ∀ e ∈ s.ents, pyStrip e.text = e.text)
    (htrimC : ∀ s ∈ (nlp text).sents, ∀ c ∈ s.chunks, pyStrip c.text = c.text)
    (hcE : ∀ e ∈ (nlp text).ents, ¬ phCollides e.text N)
    (hcT : ∀ t ∈ (nlp text).tokens, ¬ phCollides t.text N)
    (hcSE : ∀ s ∈ (nlp text).sents, ∀ e ∈ s.ents, ¬ phCollides e.text N)
    (hcSC : ∀ s ∈ (nlp text).sents, ∀ c ∈ s.chunks, ¬ phCollides c.text N)
    (hcW : ∀ w x, x ∈ get_synonyms wn w → ¬ phCollides x N)
    (card : Flashcard)
    (hcard : card ∈ generate_mcq_flashcards nlp wn rand text N) :
    card.options.countP (fun o => pyLower o == pyLower card.answer) = 1 ∧
      card.options.Pairwise (fun x y => pyLower x ≠ pyLower y) := by
  obtain ⟨i, sent, qa, hmem, hqa, hEq⟩ :=
    mem_generate nlp wn rand text N card hcard
  have hsent : sent ∈ (nlp text).sents := snd_mem_of_mem_enum hmem
  obtain ⟨hcc, hq1, hne, hgd⟩ := chooseQA_inv sent qa hqa
  have horigin := codeChosen_origin sent qa.2 hcc
  have htrim_a : pyStrip qa.2 = qa.2 := by
    rcases horigin with ⟨e, he, heq2⟩ | ⟨c, hc, heq2⟩
    · rw [heq2]; exact htrimE sent hsent e he
    · rw [heq2]; exact htrimC sent hsent c hc
  have hcol_a : ¬ phCollides qa.2 N := by
    rcases horigin with ⟨e, he, heq2⟩ | ⟨c, hc, heq2⟩
    · rw [heq2]; exact hcSE sent hsent e he
    · rw [heq2]; exact hcSC sent hsent c hc
  have hcardAns : card.answer = qa.2 := by rw [hEq]; exact htrim_a
  have hcardOpts : card.options = buildOptions (nlp text) wn (rand i) N qa.2 := by
    rw [hEq]
  rw [hcardAns, hcardOpts]
  simp only [buildOptions]
  set fD := selectFinal qa.2 N (poolFor (nlp text) wn (rand i) N qa.2) with hfD
  set D := padPlaceholders fD N with hD
  set S := (rand i).sample D (min D.length N) with hS
  have hfD_col : ∀ x ∈ fD, ¬ phCollides x N := by
    intro x hx
    rw [hfD] at hx
    have hx2 : x ∈ poolFor (nlp text) wn (rand i) N qa.2 := by
      rcases selectGo_subset _ [] x hx with h1 | h1
      · cases h1
      · exact h1
    rcases poolFor_mem _ _ _ _ _ x (hshufFall i) hx2 with h1 | h1
    · exact hcW _ x h1
    · rcases fallbackPool_mem _ _ x h1 with ⟨e, he, heq2⟩ | ⟨t, ht, heq2⟩
      · rw [heq2]; exact hcE e he
      · rw [heq2]; exact hcT t ht
  have hfD_na : ∀ x ∈ fD, pyLower x ≠ pyLower qa.2 := by
    intro x hx
    rw [hfD] at hx
    exact selectFinal_not_answer _ x hx
  have hfD_pw : fD.Pairwise (fun x y => pyLower x ≠ pyLower y) := by
    rw [hfD]
    exact selectGo_pairwise _ [] List.Pairwise.nil
  have hD_pw : D.Pairwise (fun x y => pyLower x ≠ pyLower y) := by
    rw [hD]
    unfold padPlaceholders
    apply padCount_pairwise _ _ hfD_pw
    intro x hx k hk1 hk2 heq2
    exact hfD_col x hx ⟨k, (mem_range1_iff k N).2 ⟨by omega, by omega⟩, heq2⟩
  have hD_na : ∀ x ∈ D, pyLower x ≠ pyLower qa.2 := by
    intro x hx
    rw [hD] at hx
    rcases padCount_mem _ _ x hx with h1 | ⟨k, hk1, hk2, rfl⟩
    · exact hfD_na x h1
    · intro heq2
      exact hcol_a ⟨k, (mem_range1_iff k N).2 ⟨by omega, by omega⟩, heq2.symm⟩
  have hsub : List.Subperm S D := by
    rw [hS]
    exact hsamp i D _ (Nat.min_le_left _ _)
  have hS_D : ∀ x ∈ S, x ∈ D := fun x hx => hsub.subset hx
  have hS_pw : S.Pairwise (fun x y => pyLower x ≠ pyLower y) := by
    obtain ⟨l2, hperm, hsl⟩ := hsub
    exact (List.Perm.pairwise_iff (fun hxy => Ne.symm hxy) hperm).1
      (List.Pairwise.sublist hsl hD_pw)
  have hcons_pw : (qa.2 :: S).Pairwise (fun x y => pyLower x ≠ pyLower y) := by
    rw [List.pairwise_cons]
    exact ⟨fun x hx heq2 => hD_na x (hS_D x hx) heq2.symm, hS_pw⟩
  have hperm_opt := hshuf i (qa.2 :: S)
  constructor
  · rw [hperm_opt.countP_eq]
    have h0 : S.countP (fun o => pyLower o == pyLower qa.2) = 0 :=
      List.countP_eq_zero.2
        (fun x hx => by simpa using hD_na x (hS_D x hx))
    rw [List.countP_cons, h0]
    simp
  · exact (List.Perm.pairwise_iff (fun hxy => Ne.symm hxy) hperm_opt).2 hcons_pw

/-- Witness for the amended C1 on a concrete well-behaved document. -/
theorem c1_options_unique_witness :
    ((generate_mcq_flashcards wNlp wWn idRand wText 3).headD
        default).options.countP
      (fun o => pyLower o == pyLower
        ((generate_mcq_flashcards wNlp wWn idRand wText 3).headD
          default).answer) = 1 ∧
      ((generate_mcq_flashcards wNlp wWn idRand wText 3).headD
        default).options.Pairwise (fun x y => pyLower x ≠ pyLower y) :=
  c1_options_unique wNlp wWn idRand wText 3
    (fun _ l => by simp only [idRand]; exact List.Perm.refl l)
    (fun _ l => by simp only [idRand]; exact List.Perm.refl l)
    (fun _ l k _ => by
      simp only [idRand]
      exact (List.take_sublist k l).subperm)
    (by decide) (by decide) (by decide) (by decide) (by decide) (by decide)
    (fun w x hx => by simp [get_synonyms, wWn] at hx)
    _ (by decide)

/-! ### Stripping, the marker, and occurrence counting (claim C3) -/

theorem marker_eq_replicate : marker = List.replicate 6 '_' := by decide

theorem marker_cons : marker = '_' :: "_____".data := by decide

theorem marker_ne_nil : marker ≠ [] := by decide

theorem marker_not_ws : ∀ c ∈ marker, c.isWhitespace = false := by decide

theorem marker_lower : pyLower marker = marker := by decide

/-- A pattern with no character satisfying `p` survives `dropWhile p`. -/
theorem infix_dropWhile {p : Char → Bool} {pat : List Char} (hne : pat ≠ [])
    (hpat : ∀ c ∈ pat, p c = false) :
    ∀ (l : List Char), pat <:+: l → pat <:+: l.dropWhile p
  | [], h => by simpa [List.dropWhile] using h
  | c :: cs, h => by
    by_cases hp : p c
    · rw [List.dropWhile_cons, if_pos hp]
      apply infix_dropWhile hne hpat cs
      rcases ( List.infix_cons_iff).1 h with h1 | h1
      · rcases pat with _ | ⟨p1, pt⟩
        · exact absurd rfl hne
        · have hpc := (List.cons_prefix_cons.1 h1).1
          have hfalse := hpat p1 (List.mem_cons_self p1 pt)
          rw [hpc, hp] at hfalse
          cases hfalse
      · exact h1
    · rw [List.dropWhile_cons, if_neg hp]
      exact h

/-- A nonempty whitespace-free pattern that occurs in a string still
occurs after `strip()`. -/
theorem infix_pyStrip {pat : List Char} (hne : pat ≠ [])
    (hpat : ∀ c ∈ pat, c.isWhitespace = false) (l : List Char)
    (h : pat <:+: l) : pat <:+: pyStrip l := by
  have h1 : pat <:+: pyLstrip l := infix_dropWhile hne hpat l h
  have h2 : pat.reverse <:+: (pyLstrip l).reverse := ( List.reverse_infix).2 h1
  have h3 : pat.reverse <:+: (pyLstrip l).reverse.dropWhile Char.isWhitespace :=
    infix_dropWhile (by simpa using hne)
      (fun c hc => hpat c (List.mem_reverse.1 hc)) _ h2
  have h4 := ( List.reverse_infix).2 h3
  simpa [pyStrip] using h4

/-- `strip()` of a string returns an infix of it. -/
theorem pyStrip_within (l : List Char) : pyStrip l <:+: l := by
  have h1 : pyLstrip l <:+ l := List.dropWhile_suffix _
  have h2 : (pyLstrip l).reverse.dropWhile Char.isWhitespace
      <:+ (pyLstrip l).reverse := List.dropWhile_suffix _
  have h3 : pyStrip l <+: pyLstrip l := by
    have h4 := ( List.reverse_prefix).2 h2
    simpa [pyStrip] using h4
  exact h3.isInfix.trans h1.isInfix

theorem dropWhile_append_cons {p : Char → Bool} {c : Char} (hc : p c = false) :
    ∀ (xs ys : List Char),
      (xs ++ c :: ys).dropWhile p = xs.dropWhile p ++ c :: ys
  | [], ys => by simp [List.dropWhile_cons, hc]
  | x :: xs, ys => by
    by_cases hx : p x
    · simp [List.dropWhile_cons, hx, dropWhile_append_cons hc xs ys]
    · simp [List.dropWhile_cons, hx]

/-- `strip()` around a nonempty whitespace-free middle block strips the
two sides independently. -/
theorem strip_middle (mid : List Char) (hm : mid ≠ [])
    (hmw : ∀ c ∈ mid, c.isWhitespace = false) (A B : List Char) :
    pyStrip (A ++ mid ++ B)
      = pyLstrip A ++ mid ++ (B.reverse.dropWhile Char.isWhitespace).reverse := by
  obtain ⟨m1, mrest, rfl⟩ : ∃ m1 mrest, mid = m1 :: mrest := by
    cases mid with
    | nil => exact absurd rfl hm
    | cons x xs => exact ⟨x, xs, rfl⟩
  have hm1 : m1.isWhitespace = false := hmw m1 (List.mem_cons_self _ _)
  have hstep1 : (A ++ (m1 :: mrest) ++ B).dropWhile Char.isWhitespace
      = A.dropWhile Char.isWhitespace ++ (m1 :: (mrest ++ B)) := by
    have hshape : A ++ (m1 :: mrest) ++ B = A ++ m1 :: (mrest ++ B) := by simp
    rw [hshape, dropWhile_append_cons hm1]
  obtain ⟨mk, mrev, hrev⟩ : ∃ mk mrev, (m1 :: mrest).reverse = mk :: mrev := by
    have hne2 : (m1 :: mrest).reverse ≠ [] := by simp
    cases hx : (m1 :: mrest).reverse with
    | nil => exact absurd hx hne2
    | cons x xs => exact ⟨x, xs, rfl⟩
  have hmk : mk.isWhitespace = false := by
    apply hmw
    have : mk ∈ (m1 :: mrest).reverse := by rw [hrev]; exact List.mem_cons_self _ _
    exact List.mem_reverse.1 this
  unfold pyStrip pyLstrip
  rw [hstep1]
  have hshape2 : (A.dropWhile Char.isWhitespace ++ m1 :: (mrest ++ B)).reverse
      = B.reverse ++ mk :: (mrev ++ (A.dropWhile Char.isWhitespace).reverse) := by
    have : (m1 :: (mrest ++ B)).reverse
        = B.reverse ++ (m1 :: mrest).reverse := by simp
    rw [List.reverse_append, this, hrev]
    simp
  rw [hshape2, dropWhile_append_cons hmk]
  rw [show B.reverse.dropWhile Char.isWhitespace ++ mk ::
        (mrev ++ (A.dropWhile Char.isWhitespace).reverse)
      = B.reverse.dropWhile Char.isWhitespace ++ (mk :: mrev)
          ++ (A.dropWhile Char.isWhitespace).reverse by simp]
  rw [← hrev]
  simp

theorem countOcc_cons_le (pat : List Char) (c : Char) (cs : List Char) :
    countOcc pat cs ≤ countOcc pat (c :: cs) := by
  simp only [countOcc]
  omega

theorem countOcc_append_le (pat : List Char) :
    ∀ (U V : List Char), countOcc pat V ≤ countOcc pat (U ++ V)
  | [], _ => Nat.le_refl _
  | c :: U', V => by
    have h1 := countOcc_append_le pat U' V
    have h2 := countOcc_cons_le pat c (U' ++ V)
    simpa using Nat.le_trans h1 h2

theorem countOcc_occurrence {pat : List Char} (hne : pat ≠ []) :
    ∀ (U V : List Char), 1 + countOcc pat V ≤ countOcc pat (U ++ pat ++ V)
  | [], V => by
    obtain ⟨p1, pt, rfl⟩ : ∃ p1 pt, pat = p1 :: pt := by
      cases pat with
      | nil => exact absurd rfl hne
      | cons x xs => exact ⟨x, xs, rfl⟩
    have hpre : (p1 :: pt).isPrefixOf (p1 :: (pt ++ V)) = true := by
      apply ( List.isPrefixOf_iff_prefix).2
      exact List.cons_prefix_cons.2 ⟨rfl, List.prefix_append pt V⟩
    have hshape : ([] : List Char) ++ (p1 :: pt) ++ V = p1 :: (pt ++ V) := by simp
    rw [hshape]
    simp only [countOcc, hpre, if_true]
    have := countOcc_append_le (p1 :: pt) pt V
    omega
  | c :: U', V => by
    have h1 := countOcc_occurrence hne U' V
    have h2 := countOcc_cons_le pat c (U' ++ pat ++ V)
    have hshape : (c :: U') ++ pat ++ V = c :: (U' ++ pat ++ V) := by simp
    rw [hshape]
    exact Nat.le_trans h1 h2

theorem countOcc_marker_zero :
    ∀ (l : List Char), (∀ c ∈ l, ¬ c = '_') → countOcc marker l = 0
  | [], _ => by decide
  | c :: cs, h => by
    have hc : marker.isPrefixOf (c :: cs) = false := by
      apply Bool.eq_false_iff.2
      intro hb
      have hpre := ( List.isPrefixOf_iff_prefix).1 hb
      rw [marker_cons] at hpre
      exact h c (List.mem_cons_self c cs) (List.cons_prefix_cons.1 hpre).1.symm
    simp only [countOcc, hc, Bool.false_eq_true, if_false, Nat.zero_add]
    exact countOcc_marker_zero cs (fun x hx => h x (List.mem_cons_of_mem _ hx))

theorem replicate_prefix_iff {B : List Char} (hB : ∀ c ∈ B, ¬ c = '_') :
    ∀ (k m : Nat),
      ((List.replicate k '_').isPrefixOf (List.replicate m '_' ++ B) = true)
        ↔ k ≤ m
  | 0, m => by simp [List.isPrefixOf]
  | k + 1, 0 => by
    constructor
    · intro hb
      have hpre := ( List.isPrefixOf_iff_prefix).1 hb
      rw [List.replicate_succ] at hpre
      simp only [List.replicate, List.nil_append] at hpre
      cases B with
      | nil => simp at hpre
      | cons b bs =>
        exact absurd (List.cons_prefix_cons.1 hpre).1.symm
          (hB b (List.mem_cons_self b bs))
    · omega
  | k + 1, m + 1 => by
    rw [List.replicate_succ, List.replicate_succ (a := '_') (n := m),
      List.cons_append]
    have hkm := replicate_prefix_iff hB k m
    simp only [List.isPrefixOf, beq_self_eq_true, Bool.true_and]
    rw [hkm]
    omega

theorem marker_prefix_iff {B : List Char} (hB : ∀ c ∈ B, ¬ c = '_') (m : Nat) :
    (marker.isPrefixOf (List.replicate m '_' ++ B) = true) ↔ 6 ≤ m := by
  rw [marker_eq_replicate]
  exact replicate_prefix_iff hB 6 m

theorem countOcc_marker_replicate {B : List Char} (hB : ∀ c ∈ B, ¬ c = '_') :
    ∀ (m : Nat), countOcc marker (List.replicate m '_' ++ B) = m - 5
  | 0 => by simpa using countOcc_marker_zero B hB
  | m + 1 => by
    have heq : List.replicate (m + 1) '_' ++ B
        = '_' :: (List.replicate m '_' ++ B) := by
      rw [List.replicate_succ, List.cons_append]
    rw [heq]
    simp only [countOcc]
    rw [countOcc_marker_replicate hB m]
    by_cases h6 : 6 ≤ m + 1
    · have hpp : marker.isPrefixOf ('_' :: (List.replicate m '_' ++ B)) = true := by
        rw [← heq]
        exact (marker_prefix_iff hB (m + 1)).2 h6
      rw [if_pos hpp]
      omega
    · have hnp : ¬ marker.isPrefixOf ('_' :: (List.replicate m '_' ++ B)) = true := by
        rw [← heq]
        intro hb
        exact h6 ((marker_prefix_iff hB (m + 1)).1 hb)
      rw [if_neg hnp]
      omega

theorem countOcc_marker_one :
    ∀ (A : List Char), (∀ c ∈ A, ¬ c = '_') →
      ∀ (B : List Char), (∀ c ∈ B, ¬ c = '_') →
        countOcc marker (A ++ marker ++ B) = 1
  | [], _, B, hB => by
    have hsh : ([] : List Char) ++ marker ++ B
        = List.replicate 6 '_' ++ B := by
      rw [← marker_eq_replicate]
      simp
    rw [hsh, countOcc_marker_replicate hB 6]
  | c :: A', hA, B, hB => by
    have hc : marker.isPrefixOf (c :: (A' ++ marker ++ B)) = false := by
      apply Bool.eq_false_iff.2
      intro hb
      have hpre := ( List.isPrefixOf_iff_prefix).1 hb
      rw [marker_cons] at hpre
      exact hA c (List.mem_cons_self c A') (List.cons_prefix_cons.1 hpre).1.symm
    have hsh : (c :: A') ++ marker ++ B = c :: (A' ++ marker ++ B) := by simp
    rw [hsh]
    simp only [countOcc, hc, Bool.false_eq_true, if_false, Nat.zero_add]
    exact countOcc_marker_one A' (fun x hx => hA x (List.mem_cons_of_mem _ hx))
      B hB

theorem pyLower_append (a b : List Char) :
    pyLower (a ++ b) = pyLower a ++ pyLower b :=
  List.map_append _ a b

/-- An underscore-free pattern cannot start inside a block of
underscores. -/
theorem infix_skip_replicate {pat : List Char} (hne : pat ≠ [])
    (hp : ∀ c ∈ pat, ¬ c = '_') :
    ∀ (m : Nat) (Y : List Char),
      pat <:+: (List.replicate m '_' ++ Y) → pat <:+: Y
  | 0, _, h => by simpa using h
  | m + 1, Y, h => by
    rw [List.replicate_succ, List.cons_append] at h
    rcases ( List.infix_cons_iff).1 h with h1 | h1
    · obtain ⟨p1, pt, rfl⟩ : ∃ p1 pt, pat = p1 :: pt := by
        cases pat with
        | nil => exact absurd rfl hne
        | cons x xs => exact ⟨x, xs, rfl⟩
      exact absurd (List.cons_prefix_cons.1 h1).1
        (hp p1 (List.mem_cons_self _ _))
    · exact infix_skip_replicate hne hp m Y h1

/-- An underscore-free prefix of `X ++ '_' :: Z` lies within `X`. -/
theorem prefix_stop_at_mark :
    ∀ (X pat Z : List Char), (∀ c ∈ pat, ¬ c = '_') →
      pat <+: (X ++ '_' :: Z) → pat <+: X
  | _, [], _, _, _ => List.nil_prefix
  | [], p1 :: pt, _, hp, h =>
    absurd (List.cons_prefix_cons.1 (by simpa using h)).1
      (hp p1 (List.mem_cons_self _ _))
  | x :: X', p1 :: pt, Z, hp, h => by
    have h2 := List.cons_prefix_cons.1 (by simpa using h)
    exact List.cons_prefix_cons.2
      ⟨h2.1, prefix_stop_at_mark X' pt Z
        (fun c hc => hp c (List.mem_cons_of_mem _ hc)) h2.2⟩

/-- An underscore-free pattern occurring in `X ++ marker ++ Y` occurs
entirely within `X` or within `Y`. -/
theorem infix_middle_split {pat : List Char} (hne : pat ≠ [])
    (hp : ∀ c ∈ pat, ¬ c = '_') :
    ∀ (X Y : List Char),
      pat <:+: (X ++ marker ++ Y) → pat <:+: X ∨ pat <:+: Y
  | [], Y, h => by
    right
    have hsh : ([] : List Char) ++ marker ++ Y
        = List.replicate 6 '_' ++ Y := by
      rw [← marker_eq_replicate]
      simp
    rw [hsh] at h
    exact infix_skip_replicate hne hp 6 Y h
  | x :: X', Y, h => by
    have hsh : (x :: X') ++ marker ++ Y = x :: (X' ++ marker ++ Y) := by simp
    rw [hsh] at h
    rcases ( List.infix_cons_iff).1 h with h1 | h1
    · left
      have hsh2 : x :: (X' ++ marker ++ Y)
          = (x :: X') ++ '_' :: ("_____".data ++ Y) := by
        rw [marker_cons]
        simp
      rw [hsh2] at h1
      exact (prefix_stop_at_mark (x :: X') pat _ hp h1).isInfix
    · rcases infix_middle_split hne hp X' Y h1 with h2 | h2
      · exact Or.inl (( List.infix_cons_iff).2 (Or.inr h2))
      · exact Or.inr h2

theorem countOcc_two {pat : List Char} (hne : pat ≠ [])
    (P Q R : List Char) :
    2 ≤ countOcc pat (P ++ pat ++ (Q ++ pat ++ R)) := by
  have h1 := countOcc_occurrence hne Q R
  have h2 := countOcc_occurrence hne P (Q ++ pat ++ R)
  omega

/-- Claim C3, counterexample: when the answer occurs twice in its
sentence, only the first occurrence is masked and the answer remains in
the question text, so the claimed invariant fails. -/
theorem c3_counterexample :
    ∃ card ∈ generate_mcq_flashcards twiceNlp wWn idRand "x".data 1,
      ¬ (countOcc marker card.question = 1 ∧
        containsSub (pyLower card.question) (pyLower card.answer) = false) := by
  decide

/-- Claim C3 as amended: every emitted flashcard's question either
contains the blank marker or does not contain the (trimmed) answer
case-insensitively — that is exactly what the guard of line 107
enforces; and in the benign case in which the lowercased answer occurs
exactly once in the lowercased stripped sentence, the answer occurs
case-sensitively, and the sentence is free of underscores (also after
lowercasing), the question contains the marker exactly once and the
answer does not remain anywhere in it. -/
theorem c3_question_masking (doc : Doc) (wn : List Char → List (List Char))
    (r : SentRand) (N : Nat) (sent : Sent) (card : Flashcard) (a : List Char)
    (hcard : processSent doc wn r N sent = some card)
    (ha : codeChosen sent = some a)
    (htrim : pyStrip a = a) :
    (containsSub card.question marker = true ∨
      containsSub (pyLower card.question) (pyLower card.answer) = false) ∧
      (countOcc (pyLower a) (pyLower (pyStrip sent.text)) = 1 →
        containsSub (pyStrip sent.text) a = true →
        (∀ c ∈ pyStrip sent.text, ¬ c = '_' ∧ ¬ c.toLower = '_') →
        countOcc marker card.question = 1 ∧
          containsSub (pyLower card.question) (pyLower card.answer) = false) := by
  simp only [processSent] at hcard
  obtain ⟨qa, hqa, hEq⟩ := Option.map_eq_some'.1 hcard
  obtain ⟨hcc, hq1, hne, hgd⟩ := chooseQA_inv sent qa hqa
  have haa : a = qa.2 := Option.some.inj (ha.symm.trans hcc)
  subst haa
  set s := pyStrip sent.text with hsdef
  set q := replaceFirst s qa.2 marker with hqdef
  have hq : card.question = pyStrip q := by
    have h0 : card.question = pyStrip qa.1 := by rw [← hEq]
    rw [h0, hq1]
  have hans : card.answer = qa.2 := by
    have h0 : card.answer = pyStrip qa.2 := by rw [← hEq]
    rw [h0, htrim]
  constructor
  · rcases hgd with hA | hM
    · right
      rw [hans]
      apply Bool.eq_false_iff.2
      intro hb
      have hin := (containsSub_iff _ _).1 hb
      have h1 : pyLower card.question <:+: pyLower qa.1 := by
        rw [hq, hq1]
        exact List.IsInfix.map _ (pyStrip_within q)
      have h2 := hin.trans h1
      have h3 := (containsSub_iff (pyLower qa.1) (pyLower qa.2)).2 h2
      rw [hA] at h3
      cases h3
    · left
      rw [hq]
      apply (containsSub_iff _ _).2
      apply infix_pyStrip marker_ne_nil marker_not_ws
      have hm := (containsSub_iff qa.1 marker).1 hM
      rwa [hq1] at hm
  · intro hone hocc hund
    have hanil : qa.2 ≠ [] := codeChosen_ne_nil sent qa.2 hcc
    have hinf : qa.2 <:+: s := (containsSub_iff s qa.2).1 hocc
    obtain ⟨pre, suf, hsplit, hrepl⟩ :=
      replaceFirst_sub_exists marker hanil s hinf
    have hqeq : q = pre ++ marker ++ suf := hqdef.trans hrepl
    have hpre_u : ∀ c ∈ pre, ¬ c = '_' := fun c hc =>
      (hund c (by rw [hsplit]; simp [hc])).1
    have hsuf_u : ∀ c ∈ suf, ¬ c = '_' := fun c hc =>
      (hund c (by rw [hsplit]; simp [hc])).1
    have hstrip : pyStrip q = pyLstrip pre ++ marker ++
        (suf.reverse.dropWhile Char.isWhitespace).reverse := by
      rw [hqeq]
      exact strip_middle marker marker_ne_nil marker_not_ws pre suf
    set A := pyLstrip pre with hA2
    set B := (suf.reverse.dropWhile Char.isWhitespace).reverse with hB2
    have hA_sub : ∀ c ∈ A, c ∈ pre := fun c hc =>
      (List.dropWhile_suffix _).subset hc
    have hB_sub : ∀ c ∈ B, c ∈ suf := by
      intro c hc
      rw [hB2] at hc
      have h1 := List.mem_reverse.1 hc
      exact List.mem_reverse.1 ((List.dropWhile_suffix _).subset h1)
    have hA_u : ∀ c ∈ A, ¬ c = '_' := fun c hc => hpre_u c (hA_sub c hc)
    have hB_u : ∀ c ∈ B, ¬ c = '_' := fun c hc => hsuf_u c (hB_sub c hc)
    have hqcard : card.question = A ++ marker ++ B := hq.trans hstrip
    constructor
    · rw [hqcard]
      exact countOcc_marker_one A hA_u B hB_u
    · rw [hqcard, hans]
      apply Bool.eq_false_iff.2
      intro hb
      have hin := (containsSub_iff _ _).1 hb
      have hlow : pyLower (A ++ marker ++ B)
          = pyLower A ++ marker ++ pyLower B := by
        rw [pyLower_append, pyLower_append, marker_lower]
      rw [hlow] at hin
      have hla_ne : pyLower qa.2 ≠ [] := by
        intro hx
        exact hanil (List.map_eq_nil_iff.1 hx)
      have hla_u : ∀ c ∈ pyLower qa.2, ¬ c = '_' := by
        intro c hc
        obtain ⟨c0, hc0, rfl⟩ := List.mem_map.1 hc
        exact (hund c0 (by rw [hsplit]; simp [hc0])).2
      rcases infix_middle_split hla_ne hla_u (pyLower A) (pyLower B) hin
        with h1 | h1
      · have h2 : pyLower A <:+ pyLower pre := by
          rw [hA2]
          exact List.IsSuffix.map _ (List.dropWhile_suffix _)
        have h3 : pyLower qa.2 <:+: pyLower pre := h1.trans h2.isInfix
        obtain ⟨u, v, huv⟩ := h3
        have hshape : pyLower s
            = u ++ pyLower qa.2 ++ (v ++ pyLower qa.2 ++ pyLower suf) := by
          rw [hsplit, pyLower_append, pyLower_append, ← huv]
          try simp [List.append_assoc]
        rw [hshape] at hone
        have := countOcc_two hla_ne u v (pyLower suf)
        omega
      · have hBp : B <+: suf := by
          rw [hB2]
          have h4 := ( List.reverse_prefix).2
            (List.dropWhile_suffix (p := Char.isWhitespace) (l := suf.reverse))
          simpa using h4
        have h2 : pyLower B <+: pyLower suf := List.IsPrefix.map _ hBp
        have h3 : pyLower qa.2 <:+: pyLower suf := h1.trans h2.isInfix
        obtain ⟨u, v, huv⟩ := h3
        have hshape : pyLower s
            = pyLower pre ++ pyLower qa.2 ++ (u ++ pyLower qa.2 ++ v) := by
          rw [hsplit, pyLower_append, pyLower_append, ← huv]
          try simp [List.append_assoc]
        rw [hshape] at hone
        have := countOcc_two hla_ne (pyLower pre) u v
        omega

/-- Witness for the amended C3 on the concrete sentence of `wDoc`. -/
theorem c3_question_masking_witness :
    countOcc marker
        ((processSent wDoc wWn (idRand 0) 3 wSent).getD default).question = 1 ∧
      containsSub
        (pyLower ((processSent wDoc wWn (idRand 0) 3 wSent).getD
          default).question)
        (pyLower ((processSent wDoc wWn (idRand 0) 3 wSent).getD
          default).answer) = false :=
  (c3_question_masking wDoc wWn (idRand 0) 3 wSent _ "Paris".data
      (by decide) (by decide) (by decide)).2
    (by decide) (by decide) (by decide)

end FlashcardGen
